import Mathlib

/-!
Shallow embedding of the cw-query pagination engine (src/src/lib.rs,
src/src/query.rs, src/src/prefix.rs).

Keys and values are modelled as `Nat`; the underlying ordered store is a
list of `(key, value)` pairs, sorted strictly ascending by key (the
cw-storage-plus backend yields entries in ascending raw-key order).
Key/value deserialization is modelled by fallible decode functions
`Nat → Except String Nat` (`StdResult` becomes `Except String`).
-/

/-- Result type of `query.rs` / `prefix.rs` pagination (`NextPage`). -/
structure NextPage (D K : Type) where
  data : List D
  next : Option K
  qty : Nat
deriving DecidableEq

/-- Result type of `lib.rs` pagination (`Pagination`). -/
structure Pagination (D K : Type) where
  data : List D
  next : Option K
  qty : Nat
deriving DecidableEq

/-- Page request (`query.rs` `Page` / `lib.rs` `DefaultPage`): optional
exclusive start cursor and optional page-size override. -/
structure Page (K : Type) where
  start : Option K
  qty : Option Nat
deriving DecidableEq

/-- Prefix-scoped page request (`prefix.rs` `PrefixPage`): a fixed key
prefix, an optional exclusive start cursor expressed as a suffix, and an
optional page-size override. -/
structure PrefixPage (P S : Type) where
  pfx : P
  start : Option S
  qty : Option Nat
deriving DecidableEq

/-- `Map::range(storage, start.map(Bound::Exclusive), None, Ascending)`:
the store's entries strictly after the optional exclusive lower bound. -/
def scanAfter (start : Option Nat) (store : List (Nat × Nat)) :
    List (Nat × Nat) :=
  match start with
  | none => store
  | some s => store.filter (fun e => decide (s < e.1))

/-- The shared page loop of `Page::into_pagination` (query.rs:49-62),
`PrefixPage::into_pagination` (prefix.rs:60-70) and the decode/transform
part of `DefaultPage::into_pagination` (lib.rs:60-75): pull entries one at
a time from the taken iterator, propagate any decode error, transform each
entry, and record the key of the last entry (the one whose lookahead pull
returned `None`) as the continuation cursor. -/
def pageLoop {D : Type} (dk dv : Nat → Except String Nat)
    (tr : Nat → Nat → D) :
    List (Nat × Nat) → Except String (List D × Option Nat)
  | [] => Except.ok ([], none)
  | (rk, rv) :: rest =>
    match dk rk with
    | Except.error e => Except.error e
    | Except.ok k =>
      match dv rv with
      | Except.error e => Except.error e
      | Except.ok v =>
        match rest with
        | [] => Except.ok ([tr k v], some k)
        | _ :: _ =>
          match pageLoop dk dv tr rest with
          | Except.error e => Except.error e
          | Except.ok (ds, en) => Except.ok (tr k v :: ds, en)

/-- `Page::into_pagination` (query.rs:29-70): a single range scan of
`(key, value)` pairs from the exclusive start bound, taken up to
`self.qty.unwrap_or(LIMIT)`, run through the page loop; `qty` is
`data.len()`. -/
def Page.into_pagination {D : Type} (LIMIT : Nat) (p : Page Nat)
    (store : List (Nat × Nat)) (dk dv : Nat → Except String Nat)
    (tr : Nat → Nat → D) : Except String (NextPage D Nat) :=
  match pageLoop dk dv tr ((scanAfter p.start store).take (p.qty.getD LIMIT)) with
  | Except.error e => Except.error e
  | Except.ok (ds, en) => Except.ok ⟨ds, en, ds.length⟩

/-- The loop of `DefaultPage::into_pagination` (lib.rs:60-75): the scan
yields only raw keys; each key is decoded, its value fetched by a separate
point lookup (`map.load`), transformed; the key of the last entry is the
continuation cursor. -/
def pageLoopLib {D : Type} (dk : Nat → Except String Nat)
    (load : Nat → Except String Nat) (tr : Nat → Nat → D) :
    List Nat → Except String (List D × Option Nat)
  | [] => Except.ok ([], none)
  | rk :: rest =>
    match dk rk with
    | Except.error e => Except.error e
    | Except.ok k =>
      match load k with
      | Except.error e => Except.error e
      | Except.ok v =>
        match rest with
        | [] => Except.ok ([tr k v], some k)
        | _ :: _ =>
          match pageLoopLib dk load tr rest with
          | Except.error e => Except.error e
          | Except.ok (ds, en) => Except.ok (tr k v :: ds, en)

/-- `map.load(storage, key)`: point lookup of a key in the store followed
by value deserialization; a missing key is a store error. -/
def mapLoad (dv : Nat → Except String Nat) (store : List (Nat × Nat))
    (k : Nat) : Except String Nat :=
  match store.find? (fun e => decide (e.1 = k)) with
  | some e => dv e.2
  | none => Except.error "not found"

/-- `DefaultPage::into_pagination` (lib.rs:45-83): key scan via
`DefaultPage::keys` (exclusive start bound, `take(qty.unwrap_or(LIMIT))`),
then the per-key load/transform loop; the point-lookup collaborator is
the `load` parameter. -/
def DefaultPage.into_pagination {D : Type} (LIMIT : Nat) (p : Page Nat)
    (store : List (Nat × Nat)) (dk : Nat → Except String Nat)
    (load : Nat → Except String Nat) (tr : Nat → Nat → D) :
    Except String (Pagination D Nat) :=
  match pageLoopLib dk load tr
      (((scanAfter p.start store).take (p.qty.getD LIMIT)).map Prod.fst) with
  | Except.error e => Except.error e
  | Except.ok (ds, en) => Except.ok ⟨ds, en, ds.length⟩

/-- `map.prefix(p)`: the contiguous sub-range of composite-key entries
sharing the prefix `p`, yielded with only their suffix component
(prefix.rs:48-49; cw-storage-plus prefix projection). -/
def subStore (p : Nat) (store : List ((Nat × Nat) × Nat)) :
    List (Nat × Nat) :=
  (store.filter (fun e => decide (e.1.1 = p))).map (fun e => (e.1.2, e.2))

/-- `PrefixPage::into_pagination` (prefix.rs:39-78): a single range scan of
the prefix projection from the exclusive suffix start bound, taken up to
`self.qty.unwrap_or(LIMIT)`, run through the page loop. -/
def PrefixPage.into_pagination {D : Type} (LIMIT : Nat)
    (q : PrefixPage Nat Nat) (store : List ((Nat × Nat) × Nat))
    (dk dv : Nat → Except String Nat) (tr : Nat → Nat → D) :
    Except String (NextPage D Nat) :=
  match pageLoop dk dv tr
      ((scanAfter q.start (subStore q.pfx store)).take (q.qty.getD LIMIT)) with
  | Except.error e => Except.error e
  | Except.ok (ds, en) => Except.ok ⟨ds, en, ds.length⟩

/-- Strictly ascending key order of a flat store. -/
abbrev SortedKeys (store : List (Nat × Nat)) : Prop :=
  store.Pairwise (fun a b => a.1 < b.1)

/-- Strictly ascending lexicographic order of a composite-key store. -/
abbrev SortedKeys2 (store : List ((Nat × Nat) × Nat)) : Prop :=
  store.Pairwise
    (fun a b => a.1.1 < b.1.1 ∨ (a.1.1 = b.1.1 ∧ a.1.2 < b.1.2))

/-- The re-querying process of spec §8 *Continuation completeness*: start
from `none`, call `Page.into_pagination` collecting `(key, value)` pairs,
and continue from the returned `next` until it is `none` (fuel-bounded). -/
def paginateAll (LIMIT : Nat) (q : Option Nat) (store : List (Nat × Nat)) :
    Nat → Option Nat → List (Nat × Nat)
  | 0, _ => []
  | fuel + 1, start =>
    match Page.into_pagination LIMIT ⟨start, q⟩ store Except.ok Except.ok
        (fun k v => (k, v)) with
    | Except.error _ => []
    | Except.ok page =>
      match page.next with
      | none => page.data
      | some c => page.data ++ paginateAll LIMIT q store fuel (some c)

/-- The same re-querying process against `PrefixPage.into_pagination`,
with a fixed prefix and suffix cursors. -/
def paginateAllPfx (LIMIT : Nat) (q : Option Nat) (pfx : Nat)
    (store : List ((Nat × Nat) × Nat)) :
    Nat → Option Nat → List (Nat × Nat)
  | 0, _ => []
  | fuel + 1, start =>
    match PrefixPage.into_pagination LIMIT ⟨pfx, start, q⟩ store Except.ok
        Except.ok (fun k v => (k, v)) with
    | Except.error _ => []
    | Except.ok page =>
      match page.next with
      | none => page.data
      | some c => page.data ++ paginateAllPfx LIMIT q pfx store fuel (some c)

/-- Inversion of one successful step of the page loop. -/
theorem pageLoop_cons_ok {D : Type} {dk dv : Nat → Except String Nat}
    {tr : Nat → Nat → D} {rk rv : Nat} {rest : List (Nat × Nat)}
    {ds : List D} {en : Option Nat}
    (h : pageLoop dk dv tr ((rk, rv) :: rest) = Except.ok (ds, en)) :
    ∃ k v, dk rk = Except.ok k ∧ dv rv = Except.ok v ∧
      ((rest = [] ∧ ds = [tr k v] ∧ en = some k) ∨
        (∃ ds2, pageLoop dk dv tr rest = Except.ok (ds2, en) ∧
          ds = tr k v :: ds2 ∧ rest ≠ [])) := by
  simp only [pageLoop] at h
  split at h
  · exact absurd h (by simp)
  case _ k hdk =>
    split at h
    · exact absurd h (by simp)
    case _ v hdv =>
      split at h
      case _ =>
        simp only [Except.ok.injEq, Prod.mk.injEq] at h
        exact ⟨k, v, hdk, hdv, Or.inl ⟨rfl, h.1.symm, h.2.symm⟩⟩
      case _ p2 r2 =>
        split at h
        · exact absurd h (by simp)
        case _ pr ds2 en2 hpl =>
          simp only [Except.ok.injEq, Prod.mk.injEq] at h
          refine ⟨k, v, hdk, hdv, Or.inr ⟨ds2, ?_, h.1.symm, by simp⟩⟩
          rw [hpl, h.2]

/-- With decoders that always succeed, the page loop emits every taken
entry in order and records the key of the last one. -/
theorem pageLoop_ok_eq {D : Type} (tr : Nat → Nat → D)
    (items : List (Nat × Nat)) :
    pageLoop Except.ok Except.ok tr items
      = Except.ok (items.map (fun e => tr e.1 e.2),
          items.getLast?.map Prod.fst) := by
  induction items with
  | nil => rfl
  | cons hd rest ih =>
    obtain ⟨rk, rv⟩ := hd
    cases rest with
    | nil => rfl
    | cons p2 r2 =>
      have hstep : pageLoop Except.ok Except.ok tr ((rk, rv) :: p2 :: r2)
          = match pageLoop Except.ok Except.ok tr (p2 :: r2) with
            | Except.error e => Except.error e
            | Except.ok (ds, en) => Except.ok (tr rk rv :: ds, en) := rfl
      rw [hstep, ih]
      simp [List.getLast?_cons_cons]

/-- A successful page loop emits exactly as many items as it was given. -/
theorem pageLoop_length {D : Type} {dk dv : Nat → Except String Nat}
    {tr : Nat → Nat → D} :
    ∀ {items : List (Nat × Nat)} {ds : List D} {en : Option Nat},
      pageLoop dk dv tr items = Except.ok (ds, en) → ds.length = items.length
  | [], ds, en, h => by
    simp only [pageLoop, Except.ok.injEq, Prod.mk.injEq] at h
    simp [← h.1]
  | (rk, rv) :: rest, ds, en, h => by
    obtain ⟨k, v, _, _, hcase⟩ := pageLoop_cons_ok h
    rcases hcase with ⟨hnil, hds, _⟩ | ⟨ds2, hpl, hds, _⟩
    · subst hnil; simp [hds]
    · have := pageLoop_length hpl
      simp [hds, this]

/-- A successful page loop with the key-collecting transform records
exactly the last emitted key as the cursor. -/
theorem pageLoop_last {dk dv : Nat → Except String Nat} :
    ∀ {items : List (Nat × Nat)} {ds : List Nat} {en : Option Nat},
      pageLoop dk dv (fun k _ => k) items = Except.ok (ds, en) →
        en = ds.getLast?
  | [], ds, en, h => by
    simp only [pageLoop, Except.ok.injEq, Prod.mk.injEq] at h
    simp [← h.1, ← h.2]
  | (rk, rv) :: rest, ds, en, h => by
    obtain ⟨k, v, _, _, hcase⟩ := pageLoop_cons_ok h
    rcases hcase with ⟨hnil, hds, hen⟩ | ⟨ds2, hpl, hds, hne⟩
    · subst hds; simp [hen]
    · have hrec := pageLoop_last hpl
      have hlen := pageLoop_length hpl
      have hds2 : ds2 ≠ [] := by
        intro hc
        rw [hc] at hlen
        exact hne (List.length_eq_zero.mp hlen.symm)
      subst hds
      rw [hrec]
      cases ds2 with
      | nil => exact absurd rfl hds2
      | cons a l => simp [List.getLast?_cons_cons]

/-- A successful page loop means every taken entry decoded successfully:
no failure was swallowed. -/
theorem pageLoop_ok_decodes {D : Type} {dk dv : Nat → Except String Nat}
    {tr : Nat → Nat → D} :
    ∀ {items : List (Nat × Nat)} {r : List D × Option Nat},
      pageLoop dk dv tr items = Except.ok r →
        ∀ e ∈ items, (∃ k, dk e.1 = Except.ok k) ∧ ∃ v, dv e.2 = Except.ok v
  | [], r, _, e, he => absurd he (List.not_mem_nil e)
  | (rk, rv) :: rest, r, h, e, he => by
    obtain ⟨k, v, hdk, hdv, hcase⟩ := pageLoop_cons_ok h
    rcases List.mem_cons.mp he with rfl | he2
    · exact ⟨⟨k, hdk⟩, ⟨v, hdv⟩⟩
    · rcases hcase with ⟨hnil, _, _⟩ | ⟨ds2, hpl, _, _⟩
      · subst hnil; exact absurd he2 (List.not_mem_nil e)
      · exact pageLoop_ok_decodes hpl e he2

/-- Both decode steps of an entry succeed. -/
abbrev decodesOk (dk dv : Nat → Except String Nat) (e : Nat × Nat) : Prop :=
  (∃ k, dk e.1 = Except.ok k) ∧ ∃ v, dv e.2 = Except.ok v

/-- The first failing entry of the taken window aborts the whole loop with
exactly its error. -/
theorem pageLoop_error {D : Type} (dk dv : Nat → Except String Nat)
    (tr : Nat → Nat → D) {msg : String} {rk rv : Nat}
    (post : List (Nat × Nat)) :
    ∀ (pre : List (Nat × Nat)), (∀ e ∈ pre, decodesOk dk dv e) →
      (dk rk = Except.error msg ∨
        (∃ k, dk rk = Except.ok k ∧ dv rv = Except.error msg)) →
      pageLoop dk dv tr (pre ++ (rk, rv) :: post) = Except.error msg
  | [], _, herr => by
    rcases herr with hdk | ⟨k, hdk, hdv⟩
    · simp [pageLoop, hdk]
    · simp [pageLoop, hdk, hdv]
  | (rx, vx) :: pre2, hpre, herr => by
    obtain ⟨⟨k, hdk⟩, ⟨v, hdv⟩⟩ := hpre _ (List.mem_cons_self _ _)
    have hrec := pageLoop_error dk dv tr post pre2
      (fun e he => hpre e (List.mem_cons_of_mem _ he)) herr
    cases hsh : pre2 ++ (rk, rv) :: post with
    | nil => exact absurd hsh (by simp)
    | cons y ys =>
      rw [List.cons_append, hsh]
      rw [hsh] at hrec
      simp only at hdk hdv
      have hstep : pageLoop dk dv tr ((rx, vx) :: y :: ys)
          = match dk rx with
            | Except.error e => Except.error e
            | Except.ok k =>
              match dv vx with
              | Except.error e => Except.error e
              | Except.ok v =>
                match pageLoop dk dv tr (y :: ys) with
                | Except.error e => Except.error e
                | Except.ok (ds, en) => Except.ok (tr k v :: ds, en) := rfl
      simp only [hstep, hdk, hdv, hrec]

/-- `Page.into_pagination` with always-succeeding decoders, in closed form:
the emitted window is the bounded scan, the cursor is the key of its last
entry, `qty` is its length. -/
theorem into_pagination_ok_eq {D : Type} (LIMIT : Nat) (p : Page Nat)
    (store : List (Nat × Nat)) (tr : Nat → Nat → D) :
    Page.into_pagination LIMIT p store Except.ok Except.ok tr
      = Except.ok
          ⟨((scanAfter p.start store).take (p.qty.getD LIMIT)).map
              (fun e => tr e.1 e.2),
            ((scanAfter p.start store).take (p.qty.getD LIMIT)).getLast?.map
              Prod.fst,
            ((scanAfter p.start store).take (p.qty.getD LIMIT)).length⟩ := by
  simp only [Page.into_pagination, pageLoop_ok_eq, List.length_map]

/-- Inversion of a successful `Page.into_pagination` call. -/
theorem into_pagination_ok_inv {D : Type} {LIMIT : Nat} {p : Page Nat}
    {store : List (Nat × Nat)} {dk dv : Nat → Except String Nat}
    {tr : Nat → Nat → D} {page : NextPage D Nat}
    (h : Page.into_pagination LIMIT p store dk dv tr = Except.ok page) :
    ∃ ds en,
      pageLoop dk dv tr ((scanAfter p.start store).take (p.qty.getD LIMIT))
          = Except.ok (ds, en) ∧ page = ⟨ds, en, ds.length⟩ := by
  simp only [Page.into_pagination] at h
  split at h
  · exact absurd h (by simp)
  case _ pr ds en hpl =>
    simp only [Except.ok.injEq] at h
    exact ⟨ds, en, hpl, h.symm⟩

/-- In a strictly key-sorted split `A ++ B`, keeping the keys strictly
above the last key of `A` yields exactly `B`. -/
theorem filter_gt_getLast {A B : List (Nat × Nat)} {a : Nat × Nat}
    (h : (A ++ B).Pairwise (fun x y => x.1 < y.1))
    (ha : A.getLast? = some a) :
    (A ++ B).filter (fun e => decide (a.1 < e.1)) = B := by
  obtain ⟨A2, rfl⟩ := List.getLast?_eq_some_iff.mp ha
  obtain ⟨h1, h2, hcross⟩ := List.pairwise_append.mp h
  have hmem : a ∈ A2 ++ [a] := by simp
  rw [List.filter_append]
  have hfa : (A2 ++ [a]).filter (fun e => decide (a.1 < e.1)) = [] := by
    apply List.filter_eq_nil_iff.mpr
    intro x hx
    rcases List.mem_append.mp hx with hx2 | hx1
    · obtain ⟨_, _, hc2⟩ := List.pairwise_append.mp h1
      have hlt := hc2 x hx2 a (List.mem_singleton_self a)
      simp only [decide_eq_true_eq]
      omega
    · rw [List.mem_singleton.mp hx1]
      simp
  have hfb : B.filter (fun e => decide (a.1 < e.1)) = B := by
    apply List.filter_eq_self.mpr
    intro b hb
    simp [hcross a hmem b hb]
  rw [hfa, hfb, List.nil_append]

/-- The bounded ascending scan preserves strict key order. -/
theorem scanAfter_sorted (start : Option Nat) (store : List (Nat × Nat))
    (hs : SortedKeys store) : SortedKeys (scanAfter start store) := by
  cases start with
  | none => exact hs
  | some s => exact hs.filter _

/-- Re-scanning from the key of the last entry of a taken window resumes
exactly at the remainder of the previous scan. -/
theorem scanAfter_cursor (store : List (Nat × Nat)) (hs : SortedKeys store)
    (start : Option Nat) (n : Nat) {a : Nat × Nat}
    (ha : ((scanAfter start store).take n).getLast? = some a) :
    scanAfter (some a.1) store = (scanAfter start store).drop n := by
  have hLs := scanAfter_sorted start store hs
  have hfL : (scanAfter start store).filter (fun e => decide (a.1 < e.1))
      = (scanAfter start store).drop n := by
    conv_lhs =>
      rw [← List.take_append_drop n (scanAfter start store)]
    rw [← List.take_append_drop n (scanAfter start store)] at hLs
    exact filter_gt_getLast hLs ha
  cases start with
  | none => exact hfL
  | some s =>
    have hamem : a ∈ scanAfter (some s) store := by
      refine List.take_subset n _ ?_
      obtain ⟨ys, hys⟩ := List.getLast?_eq_some_iff.mp ha
      rw [hys]
      simp
    have hsa : s < a.1 := by
      simp only [scanAfter] at hamem
      simpa using List.of_mem_filter hamem
    show store.filter (fun e => decide (a.1 < e.1)) = _
    rw [← hfL]
    show store.filter _
        = (store.filter (fun e => decide (s < e.1))).filter
            (fun e => decide (a.1 < e.1))
    rw [List.filter_filter]
    refine List.filter_congr ?_
    intro x _
    by_cases hax : a.1 < x.1
    · simp [hax, lt_trans hsa hax]
    · simp [hax]

/-- Continuation completeness engine: with strictly sorted keys and a
positive effective limit, the re-querying process returns exactly the
remaining bounded scan, given enough fuel. -/
theorem paginateAll_eq (LIMIT : Nat) (q : Option Nat)
    (hl : 1 ≤ q.getD LIMIT) (store : List (Nat × Nat))
    (hs : SortedKeys store) :
    ∀ (fuel : Nat) (start : Option Nat),
      (scanAfter start store).length < fuel →
      paginateAll LIMIT q store fuel start = scanAfter start store := by
  intro fuel
  induction fuel with
  | zero => intro start h; exact absurd h (by omega)
  | succ f ih =>
    intro start hlen
    simp only [paginateAll, into_pagination_ok_eq]
    cases hw : ((scanAfter start store).take (q.getD LIMIT)).getLast? with
    | none =>
      have htake := List.getLast?_eq_none_iff.mp hw
      rcases List.take_eq_nil_iff.mp htake with h0 | hL
      · omega
      · simp [hL]
    | some a =>
      have hLne : scanAfter start store ≠ [] := by
        intro hc
        rw [hc] at hw
        simp at hw
      have hdrop := scanAfter_cursor store hs start (q.getD LIMIT) hw
      have hlt : (scanAfter (some a.1) store).length < f := by
        rw [hdrop, List.length_drop]
        have h1 : 0 < (scanAfter start store).length :=
          List.length_pos.mpr hLne
        omega
      simp only [Option.map_some']
      rw [ih (some a.1) hlt, hdrop]
      simp [List.take_append_drop]

/-- A prefix-scoped page is definitionally a flat page over the prefix
projection of the store: prefix.rs runs the very same loop over
`map.prefix(p).range(..)`. -/
theorem prefix_into_pagination_eq {D : Type} (LIMIT : Nat)
    (qr : PrefixPage Nat Nat) (store : List ((Nat × Nat) × Nat))
    (dk dv : Nat → Except String Nat) (tr : Nat → Nat → D) :
    PrefixPage.into_pagination LIMIT qr store dk dv tr
      = Page.into_pagination LIMIT ⟨qr.start, qr.qty⟩ (subStore qr.pfx store)
          dk dv tr := rfl

/-- Lexicographic order of the composite store restricts to strict suffix
order inside one prefix. -/
theorem subStore_sorted (p : Nat) (store : List ((Nat × Nat) × Nat))
    (hs : SortedKeys2 store) : SortedKeys (subStore p store) := by
  refine List.pairwise_map.mpr (List.pairwise_filter.mpr
    (List.Pairwise.imp ?_ hs))
  intro a b hab hpa hpb
  rcases hab with h1 | ⟨h2, h3⟩
  · omega
  · exact h3

/-- The prefix re-querying process coincides with the flat process on the
prefix projection. -/
theorem paginateAllPfx_eq (LIMIT : Nat) (q : Option Nat) (pfx : Nat)
    (store : List ((Nat × Nat) × Nat)) :
    ∀ (fuel : Nat) (start : Option Nat),
      paginateAllPfx LIMIT q pfx store fuel start
        = paginateAll LIMIT q (subStore pfx store) fuel start := by
  intro fuel
  induction fuel with
  | zero => intro start; rfl
  | succ f ih =>
    intro start
    simp only [paginateAllPfx, paginateAll, prefix_into_pagination_eq]
    cases Page.into_pagination LIMIT ⟨start, q⟩ (subStore pfx store)
        Except.ok Except.ok (fun k v => (k, v)) with
    | error e => rfl
    | ok page =>
      obtain ⟨pdata, pnext, pqty⟩ := page
      cases pnext with
      | none => rfl
      | some c =>
        show pdata ++ paginateAllPfx LIMIT q pfx store f (some c)
          = pdata ++ paginateAll LIMIT q (subStore pfx store) f (some c)
        rw [ih]

/-- Entries of the prefix projection come from composite entries of the
store under exactly that prefix. -/
theorem mem_subStore {p : Nat} {store : List ((Nat × Nat) × Nat)}
    {x : Nat × Nat} (hx : x ∈ subStore p store) :
    ((p, x.1), x.2) ∈ store := by
  unfold subStore at hx
  obtain ⟨orig, horig, heq⟩ := List.mem_map.mp hx
  have hpf : orig.1.1 = p := by
    simpa using List.of_mem_filter horig
  have hmem := List.mem_of_mem_filter horig
  rw [← heq, ← hpf]
  simpa using hmem

/-- When point lookups agree with the values the range scan yields for
the same keys, the lib.rs loop (keys + per-key load) computes the same
result as the query.rs loop (range of pairs). -/
theorem pageLoopLib_agrees {D : Type} (dk dv : Nat → Except String Nat)
    (load : Nat → Except String Nat) (tr : Nat → Nat → D) :
    ∀ (items : List (Nat × Nat)),
      (∀ e ∈ items, ∀ k, dk e.1 = Except.ok k → load k = dv e.2) →
      pageLoopLib dk load tr (items.map Prod.fst) = pageLoop dk dv tr items
  | [], _ => rfl
  | (rk, rv) :: rest, hco => by
    have hrest := pageLoopLib_agrees dk dv load tr rest
      (fun e he k hk => hco e (List.mem_cons_of_mem _ he) k hk)
    cases rest with
    | nil =>
      cases hdk : dk rk with
      | error e => simp [pageLoopLib, pageLoop, hdk]
      | ok k =>
        have hl := hco (rk, rv) (by simp) k hdk
        simp only at hl
        cases hdv : dv rv with
        | error e => simp [pageLoopLib, pageLoop, hdk, hdv, hl]
        | ok v => simp [pageLoopLib, pageLoop, hdk, hdv, hl]
    | cons p2 r2 =>
      cases hdk : dk rk with
      | error e => simp [pageLoopLib, pageLoop, hdk]
      | ok k =>
        have hl := hco (rk, rv) (by simp) k hdk
        simp only at hl
        cases hdv : dv rv with
        | error e => simp [pageLoopLib, pageLoop, hdk, hdv, hl]
        | ok v =>
          have hstepL : pageLoopLib dk load tr (rk :: (p2 :: r2).map Prod.fst)
              = match dk rk with
                | Except.error e => Except.error e
                | Except.ok k =>
                  match load k with
                  | Except.error e => Except.error e
                  | Except.ok v =>
                    match pageLoopLib dk load tr ((p2 :: r2).map Prod.fst) with
                    | Except.error e => Except.error e
                    | Except.ok (ds, en) => Except.ok (tr k v :: ds, en) := rfl
          have hstepR : pageLoop dk dv tr ((rk, rv) :: p2 :: r2)
              = match dk rk with
                | Except.error e => Except.error e
                | Except.ok k =>
                  match dv rv with
                  | Except.error e => Except.error e
                  | Except.ok v =>
                    match pageLoop dk dv tr (p2 :: r2) with
                    | Except.error e => Except.error e
                    | Except.ok (ds, en) => Except.ok (tr k v :: ds, en) := rfl
          rw [List.map_cons] at hstepL
          simp only [List.map_cons] at hrest ⊢
          simp only [hstepL, hstepR, hdk, hdv, hl, hrest]

/-- Every key a flat page emits lies strictly above the start cursor. -/
theorem into_pagination_start_lt {LIMIT : Nat} {q : Option Nat} {k : Nat}
    {store : List (Nat × Nat)} {page : NextPage Nat Nat}
    (h : Page.into_pagination LIMIT ⟨some k, q⟩ store Except.ok Except.ok
        (fun a _ => a) = Except.ok page) :
    ∀ x ∈ page.data, k < x := by
  rw [into_pagination_ok_eq] at h
  simp only [Except.ok.injEq] at h
  intro x hx
  rw [← h] at hx
  simp only at hx
  obtain ⟨e, he, rfl⟩ := List.mem_map.mp hx
  have he2 := List.take_subset _ _ he
  simp only [scanAfter] at he2
  simpa using List.of_mem_filter he2

/-- A successful flat page records exactly the last emitted key as the
continuation cursor, whatever the decoders did. -/
theorem into_pagination_next_last {LIMIT : Nat} {p : Page Nat}
    {store : List (Nat × Nat)} {dk dv : Nat → Except String Nat}
    {page : NextPage Nat Nat}
    (h : Page.into_pagination LIMIT p store dk dv (fun k _ => k)
        = Except.ok page) :
    page.next = page.data.getLast? := by
  obtain ⟨ds, en, hpl, rfl⟩ := into_pagination_ok_inv h
  exact pageLoop_last hpl

/-- Composition of `pageLoopLib_agrees` at the level of the two public
pagination entry points. -/
theorem default_into_pagination_agrees {D : Type} (LIMIT : Nat)
    (p : Page Nat) (store : List (Nat × Nat))
    (dk dv load : Nat → Except String Nat) (tr : Nat → Nat → D)
    (hco : ∀ e ∈ (scanAfter p.start store).take (p.qty.getD LIMIT),
        ∀ k, dk e.1 = Except.ok k → load k = dv e.2) :
    (DefaultPage.into_pagination LIMIT p store dk load tr).map
        (fun pg => (pg.data, pg.next, pg.qty))
      = (Page.into_pagination LIMIT p store dk dv tr).map
          (fun pg => (pg.data, pg.next, pg.qty)) := by
  unfold DefaultPage.into_pagination Page.into_pagination
  rw [pageLoopLib_agrees dk dv load tr _ hco]
  cases pageLoop dk dv tr
      ((scanAfter p.start store).take (p.qty.getD LIMIT)) with
  | error e => rfl
  | ok pr => obtain ⟨ds, en⟩ := pr; rfl

/-- Shared content of C5: a successful flat page has `qty = data.len()`
and at most `effective_limit` entries. -/
theorem into_pagination_qty_len {D : Type} {LIMIT : Nat} {p : Page Nat}
    {store : List (Nat × Nat)} {dk dv : Nat → Except String Nat}
    {tr : Nat → Nat → D} {page : NextPage D Nat}
    (h : Page.into_pagination LIMIT p store dk dv tr = Except.ok page) :
    page.qty = page.data.length ∧ page.data.length ≤ p.qty.getD LIMIT := by
  obtain ⟨ds, en, hpl, rfl⟩ := into_pagination_ok_inv h
  refine ⟨rfl, ?_⟩
  have hlen := pageLoop_length hpl
  show ds.length ≤ p.qty.getD LIMIT
  rw [hlen, List.length_take]
  exact min_le_left _ _

/-- C1 counterexample: the spec's cursor derivation rule says `next` is
`None` whenever fewer than `effective_limit` entries existed in the
keyspace at all; the code still returns `next = some 2` for a two-entry
keyspace scanned with effective limit 5. -/
theorem cursor_rule_spec_counterexample :
    ([(1, 10), (2, 20)] : List (Nat × Nat)).length < 5 ∧
      Page.into_pagination 50 ⟨none, some 5⟩ [(1, 10), (2, 20)]
          Except.ok Except.ok (fun k _ => k)
        = Except.ok ⟨[1, 2], some 2, 2⟩ ∧
      (some 2 : Option Nat) ≠ none :=
  ⟨by decide, rfl, by decide⟩

/-- C1 (amended): for every successful flat page with succeeding decoders,
the returned cursor is the key of the last entry of the scanned window —
in particular the last emitted key when the window was filled — and it is
`None` exactly when the window was empty, not merely when fewer than
`effective_limit` entries existed. -/
theorem cursor_is_last_scanned_key {D : Type} (LIMIT : Nat) (p : Page Nat)
    (store : List (Nat × Nat)) (tr : Nat → Nat → D) (page : NextPage D Nat)
    (h : Page.into_pagination LIMIT p store Except.ok Except.ok tr
        = Except.ok page) :
    page.next
      = ((scanAfter p.start store).take (p.qty.getD LIMIT)).getLast?.map
          Prod.fst := by
  rw [into_pagination_ok_eq] at h
  simp only [Except.ok.injEq] at h
  rw [← h]

theorem cursor_is_last_scanned_key_witness :
    (⟨[1, 2], some 2, 2⟩ : NextPage Nat Nat).next
      = ((scanAfter none [(1, 10), (2, 20)]).take 5).getLast?.map Prod.fst :=
  cursor_is_last_scanned_key 50 ⟨none, some 5⟩ [(1, 10), (2, 20)]
    (fun k _ => k) ⟨[1, 2], some 2, 2⟩ rfl

/-- C2: continuation completeness: paging from `none` and chaining each
page's `next` until it is `None` returns the whole sorted keyspace (resp.
prefix sub-range) exactly once, in ascending order; `store.length + 1`
rounds of fuel always suffice, so the process terminates. -/
theorem continuation_completeness (LIMIT : Nat) (q : Option Nat)
    (hl : 1 ≤ q.getD LIMIT) :
    (∀ store : List (Nat × Nat), SortedKeys store →
        paginateAll LIMIT q store (store.length + 1) none = store) ∧
    (∀ (pfx : Nat) (store : List ((Nat × Nat) × Nat)), SortedKeys2 store →
        paginateAllPfx LIMIT q pfx store (store.length + 1) none
          = subStore pfx store) := by
  constructor
  · intro store hs
    exact paginateAll_eq LIMIT q hl store hs (store.length + 1) none
      (Nat.lt_succ_self _)
  · intro pfx store hs
    rw [paginateAllPfx_eq]
    refine paginateAll_eq LIMIT q hl _ (subStore_sorted pfx store hs)
      (store.length + 1) none ?_
    show (subStore pfx store).length < store.length + 1
    have hle := List.length_filter_le (fun e => decide (e.1.1 = pfx)) store
    simp only [subStore, List.length_map]
    omega

theorem continuation_completeness_witness :
    paginateAll 2 none [(1, 5), (3, 7), (4, 9)] 4 none
        = [(1, 5), (3, 7), (4, 9)] ∧
      paginateAllPfx 2 none 1 [((1, 2), 8), ((1, 4), 9), ((2, 0), 3)] 4 none
        = [(2, 8), (4, 9)] :=
  ⟨(continuation_completeness 2 none (by decide)).1 _ (by decide),
    (continuation_completeness 2 none (by decide)).2 1 _ (by decide)⟩

/-- C3: the start bound is exclusive: a page requested with
`start = some k` never contains `k`; every emitted flat key is strictly
above `k`, and the prefix variant never re-emits the suffix `k`. -/
theorem start_exclusive (LIMIT : Nat) (q : Option Nat) (k : Nat) :
    (∀ (store : List (Nat × Nat)) (page : NextPage Nat Nat),
        Page.into_pagination LIMIT ⟨some k, q⟩ store Except.ok Except.ok
            (fun a _ => a) = Except.ok page →
        k ∉ page.data ∧ ∀ x ∈ page.data, k < x) ∧
    (∀ (pfx : Nat) (store : List ((Nat × Nat) × Nat))
        (page : NextPage Nat Nat),
        PrefixPage.into_pagination LIMIT ⟨pfx, some k, q⟩ store Except.ok
            Except.ok (fun a _ => a) = Except.ok page →
        k ∉ page.data) := by
  constructor
  · intro store page h
    have hlt := into_pagination_start_lt h
    exact ⟨fun hk => lt_irrefl k (hlt k hk), hlt⟩
  · intro pfx store page h
    rw [prefix_into_pagination_eq] at h
    have hlt := into_pagination_start_lt h
    exact fun hk => lt_irrefl k (hlt k hk)

theorem start_exclusive_witness :
    ((2 : Nat) ∉ (⟨[3], some 3, 1⟩ : NextPage Nat Nat).data ∧
      ∀ x ∈ (⟨[3], some 3, 1⟩ : NextPage Nat Nat).data, 2 < x) :=
  (start_exclusive 50 none 2).1 [(1, 10), (2, 20), (3, 30)]
    ⟨[3], some 3, 1⟩ rfl

/-- C4 counterexample: the spec says an empty page is returned only when
the (sub-)keyspace genuinely contains no further matching entries; with an
effective limit of 0 the code returns the empty page although an entry
remains and nothing failed. -/
theorem empty_page_limit_zero_counterexample :
    Page.into_pagination 50 ⟨none, some 0⟩ [(1, 10)] Except.ok Except.ok
        (fun k _ => k) = Except.ok ⟨[], none, 0⟩ ∧
      scanAfter none [(1, 10)] ≠ [] :=
  ⟨rfl, by decide⟩

/-- C4 (amended): a decode failure on any window entry aborts the whole
call with exactly that error and no partial page; a successful call means
every taken entry decoded; and an empty successful page occurs only when
the sub-keyspace has no further entries — or the effective limit is 0. -/
theorem error_propagation {D : Type} (LIMIT : Nat) (p : Page Nat)
    (store : List (Nat × Nat)) (dk dv : Nat → Except String Nat)
    (tr : Nat → Nat → D) :
    (∀ (pre post : List (Nat × Nat)) (rk rv : Nat) (msg : String),
        (scanAfter p.start store).take (p.qty.getD LIMIT)
            = pre ++ (rk, rv) :: post →
        (∀ e ∈ pre, decodesOk dk dv e) →
        (dk rk = Except.error msg ∨
          (∃ k, dk rk = Except.ok k ∧ dv rv = Except.error msg)) →
        Page.into_pagination LIMIT p store dk dv tr = Except.error msg) ∧
    (∀ page : NextPage D Nat,
        Page.into_pagination LIMIT p store dk dv tr = Except.ok page →
        (∀ e ∈ (scanAfter p.start store).take (p.qty.getD LIMIT),
            decodesOk dk dv e) ∧
        (page.data = [] →
          p.qty.getD LIMIT = 0 ∨ scanAfter p.start store = [])) := by
  constructor
  · intro pre post rk rv msg hwin hpre herr
    unfold Page.into_pagination
    rw [hwin, pageLoop_error dk dv tr post pre hpre herr]
  · intro page h
    obtain ⟨ds, en, hpl, rfl⟩ := into_pagination_ok_inv h
    refine ⟨fun e he => pageLoop_ok_decodes hpl e he, ?_⟩
    intro hdata
    have hds : ds = [] := hdata
    have hlen := pageLoop_length hpl
    rw [hds] at hlen
    have htake : (scanAfter p.start store).take (p.qty.getD LIMIT) = [] :=
      List.length_eq_zero.mp hlen.symm
    exact List.take_eq_nil_iff.mp htake

theorem error_propagation_witness :
    Page.into_pagination 50 ⟨none, some 3⟩ [(1, 10), (2, 20), (3, 30)]
        (fun n => if n = 2 then Except.error "bad" else Except.ok n)
        Except.ok (fun k _ => k)
      = Except.error "bad" :=
  (error_propagation 50 ⟨none, some 3⟩ [(1, 10), (2, 20), (3, 30)]
      (fun n => if n = 2 then Except.error "bad" else Except.ok n)
      Except.ok (fun k _ => k)).1
    [(1, 10)] [(3, 30)] 2 20 "bad" rfl
    (by
      intro e he
      fin_cases he
      exact ⟨⟨1, rfl⟩, ⟨10, rfl⟩⟩)
    (Or.inl rfl)

/-- C5: `qty` equals `data.len()` and both are bounded by the effective
limit (explicit override when present, else the configured default), for
the flat and the prefix implementations. -/
theorem qty_eq_len_le_limit {D : Type} (LIMIT : Nat) :
    (∀ (p : Page Nat) (store : List (Nat × Nat))
        (dk dv : Nat → Except String Nat) (tr : Nat → Nat → D)
        (page : NextPage D Nat),
        Page.into_pagination LIMIT p store dk dv tr = Except.ok page →
        page.qty = page.data.length ∧
          page.data.length ≤ p.qty.getD LIMIT) ∧
    (∀ (qr : PrefixPage Nat Nat) (store : List ((Nat × Nat) × Nat))
        (dk dv : Nat → Except String Nat) (tr : Nat → Nat → D)
        (page : NextPage D Nat),
        PrefixPage.into_pagination LIMIT qr store dk dv tr = Except.ok page →
        page.qty = page.data.length ∧
          page.data.length ≤ qr.qty.getD LIMIT) := by
  constructor
  · intro p store dk dv tr page h
    exact into_pagination_qty_len h
  · intro qr store dk dv tr page h
    rw [prefix_into_pagination_eq] at h
    exact into_pagination_qty_len h

theorem qty_eq_len_le_limit_witness :
    ((⟨[1, 2], some 2, 2⟩ : NextPage Nat Nat).qty
        = (⟨[1, 2], some 2, 2⟩ : NextPage Nat Nat).data.length ∧
      (⟨[1, 2], some 2, 2⟩ : NextPage Nat Nat).data.length ≤ 5) :=
  (qty_eq_len_le_limit 50).1 ⟨none, some 5⟩ [(1, 10), (2, 20)]
    Except.ok Except.ok (fun k _ => k) ⟨[1, 2], some 2, 2⟩ rfl

/-- Membership in a bounded scan implies membership in the store. -/
theorem mem_of_mem_scanAfter {start : Option Nat}
    {store : List (Nat × Nat)} {e : Nat × Nat}
    (he : e ∈ scanAfter start store) : e ∈ store := by
  cases start with
  | none => exact he
  | some s => exact List.mem_of_mem_filter he

/-- C6: omitting the limit uses the configured default `LIMIT` (the call is
identical to passing `some LIMIT`); a supplied limit `n` is used verbatim —
the result does not depend on the configured default at all, and the page
holds exactly `min n (remaining entries)` items even when `n` exceeds the
default. -/
theorem default_limit_and_override {D : Type} (LIMIT LIMIT2 n : Nat)
    (s : Option Nat) (store : List (Nat × Nat))
    (dk dv : Nat → Except String Nat) (tr : Nat → Nat → D) :
    Page.into_pagination LIMIT ⟨s, none⟩ store dk dv tr
        = Page.into_pagination LIMIT ⟨s, some LIMIT⟩ store dk dv tr ∧
      Page.into_pagination LIMIT ⟨s, some n⟩ store dk dv tr
        = Page.into_pagination LIMIT2 ⟨s, some n⟩ store dk dv tr ∧
      ∀ page : NextPage D Nat,
        Page.into_pagination LIMIT ⟨s, some n⟩ store Except.ok Except.ok tr
            = Except.ok page →
        page.data.length = min n (scanAfter s store).length := by
  refine ⟨rfl, rfl, ?_⟩
  intro page h
  rw [into_pagination_ok_eq] at h
  simp only [Except.ok.injEq] at h
  rw [← h]
  simp [List.length_take]

theorem default_limit_and_override_witness :
    (⟨[1, 2], some 2, 2⟩ : NextPage Nat Nat).data.length
        = min 5 (scanAfter none [(1, 10), (2, 20)]).length :=
  (default_limit_and_override 50 7 5 none [(1, 10), (2, 20)] Except.ok
      Except.ok (fun k _ => k)).2.2 ⟨[1, 2], some 2, 2⟩ rfl

/-- C7: an empty (sub-)keyspace, a start cursor equal to the last key, and
an effective limit of 0 each yield exactly `{data = [], next = none,
qty = 0}`; the limit-0 case holds for arbitrary decoders — even ones that
fail on every entry — so no entry of the scan is ever examined. -/
theorem empty_result_cases {D : Type} (LIMIT : Nat) (q : Option Nat)
    (dk dv : Nat → Except String Nat) (tr : Nat → Nat → D) :
    (∀ (start : Option Nat) (store : List (Nat × Nat)),
        scanAfter start store = [] →
        Page.into_pagination LIMIT ⟨start, q⟩ store dk dv tr
          = Except.ok ⟨[], none, 0⟩) ∧
    (∀ (store : List (Nat × Nat)) (a : Nat × Nat), SortedKeys store →
        store.getLast? = some a →
        Page.into_pagination LIMIT ⟨some a.1, q⟩ store dk dv tr
          = Except.ok ⟨[], none, 0⟩) ∧
    (∀ (start : Option Nat) (store : List (Nat × Nat)),
        Page.into_pagination LIMIT ⟨start, some 0⟩ store dk dv tr
          = Except.ok ⟨[], none, 0⟩) ∧
    (∀ (pfx : Nat) (start : Option Nat) (store : List ((Nat × Nat) × Nat)),
        subStore pfx store = [] →
        PrefixPage.into_pagination LIMIT ⟨pfx, start, q⟩ store dk dv tr
          = Except.ok ⟨[], none, 0⟩) := by
  have hbase : ∀ (start : Option Nat) (store : List (Nat × Nat)),
      scanAfter start store = [] →
      Page.into_pagination LIMIT ⟨start, q⟩ store dk dv tr
        = Except.ok ⟨[], none, 0⟩ := by
    intro start store hemp
    unfold Page.into_pagination
    rw [hemp]
    simp [pageLoop]
  refine ⟨hbase, ?_, ?_, ?_⟩
  · intro store a hs hlast
    apply hbase
    have h2 : (store ++ []).Pairwise (fun x y : Nat × Nat => x.1 < y.1) :=
      by simpa using hs
    have h3 := filter_gt_getLast h2 hlast
    simpa [scanAfter] using h3
  · intro start store
    unfold Page.into_pagination
    simp [pageLoop]
  · intro pfx start store hemp
    rw [prefix_into_pagination_eq]
    apply hbase
    rw [hemp]
    cases start <;> simp [scanAfter]

theorem empty_result_cases_witness :
    Page.into_pagination 50 ⟨some 2, none⟩ [(1, 10), (2, 20)]
        Except.ok Except.ok (fun k _ => k) = Except.ok ⟨[], none, 0⟩ :=
  (empty_result_cases 50 none Except.ok Except.ok (fun k _ => k)).2.1
    [(1, 10), (2, 20)] (2, 20) (by decide) rfl

/-- C8: prefix isolation: every entry of a prefix-scoped page comes from a
composite entry of the store under exactly the requested prefix, and the
continuation cursor is the suffix component of such an entry, never a full
composite key. -/
theorem prefix_isolation (LIMIT : Nat) (q : Option Nat)
    (start : Option Nat) (pfx : Nat) (store : List ((Nat × Nat) × Nat))
    (page : NextPage (Nat × Nat) Nat)
    (h : PrefixPage.into_pagination LIMIT ⟨pfx, start, q⟩ store Except.ok
        Except.ok (fun s v => (s, v)) = Except.ok page) :
    (∀ x ∈ page.data, ((pfx, x.1), x.2) ∈ store) ∧
      (∀ c, page.next = some c → ∃ v, ((pfx, c), v) ∈ store) := by
  rw [prefix_into_pagination_eq, into_pagination_ok_eq] at h
  simp only [Except.ok.injEq] at h
  subst h
  constructor
  · intro x hx
    simp only at hx
    obtain ⟨e, he, rfl⟩ := List.mem_map.mp hx
    exact mem_subStore (mem_of_mem_scanAfter (List.take_subset _ _ he))
  · intro c hc
    simp only at hc
    obtain ⟨e, he, hfst⟩ := Option.map_eq_some'.mp hc
    have hwmem :
        e ∈ (scanAfter start (subStore pfx store)).take (q.getD LIMIT) := by
      obtain ⟨ys, hys⟩ := List.getLast?_eq_some_iff.mp he
      rw [hys]
      simp
    have hmem : e ∈ subStore pfx store :=
      mem_of_mem_scanAfter (List.take_subset _ _ hwmem)
    refine ⟨e.2, ?_⟩
    rw [← hfst]
    exact mem_subStore hmem

theorem prefix_isolation_witness :
    ((∀ x ∈ (⟨[(3, 4), (5, 6)], some 5, 2⟩
          : NextPage (Nat × Nat) Nat).data,
        ((7, x.1), x.2) ∈
          ([((6, 0), 1), ((7, 3), 4), ((7, 5), 6), ((8, 0), 9)]
            : List ((Nat × Nat) × Nat))) ∧
      (∀ c, (⟨[(3, 4), (5, 6)], some 5, 2⟩
            : NextPage (Nat × Nat) Nat).next = some c →
        ∃ v, ((7, c), v) ∈
          ([((6, 0), 1), ((7, 3), 4), ((7, 5), 6), ((8, 0), 9)]
            : List ((Nat × Nat) × Nat)))) :=
  prefix_isolation 50 none none 7
    [((6, 0), 1), ((7, 3), 4), ((7, 5), 6), ((8, 0), 9)]
    ⟨[(3, 4), (5, 6)], some 5, 2⟩ rfl

/-- C9: for every successful call, with arbitrary decoders, `next` is
exactly the key of the last emitted entry: it is `Some` iff `data` is
non-empty — including short final pages, which still carry a cursor — for
the flat and prefix implementations alike. -/
theorem next_some_iff_data_nonempty (LIMIT : Nat) :
    (∀ (p : Page Nat) (store : List (Nat × Nat))
        (dk dv : Nat → Except String Nat) (page : NextPage Nat Nat),
        Page.into_pagination LIMIT p store dk dv (fun k _ => k)
            = Except.ok page →
        page.next = page.data.getLast? ∧
          (page.next = none ↔ page.data = [])) ∧
    (∀ (qr : PrefixPage Nat Nat) (store : List ((Nat × Nat) × Nat))
        (dk dv : Nat → Except String Nat) (page : NextPage Nat Nat),
        PrefixPage.into_pagination LIMIT qr store dk dv (fun k _ => k)
            = Except.ok page →
        page.next = page.data.getLast?) := by
  constructor
  · intro p store dk dv page h
    have h1 := into_pagination_next_last h
    refine ⟨h1, ?_⟩
    rw [h1]
    exact List.getLast?_eq_none_iff
  · intro qr store dk dv page h
    rw [prefix_into_pagination_eq] at h
    exact into_pagination_next_last h

theorem next_some_iff_data_nonempty_witness :
    ((⟨[1, 2], some 2, 2⟩ : NextPage Nat Nat).next
        = (⟨[1, 2], some 2, 2⟩ : NextPage Nat Nat).data.getLast? ∧
      ((⟨[1, 2], some 2, 2⟩ : NextPage Nat Nat).next = none ↔
        (⟨[1, 2], some 2, 2⟩ : NextPage Nat Nat).data = [])) :=
  (next_some_iff_data_nonempty 50).1 ⟨none, some 5⟩ [(1, 10), (2, 20)]
    Except.ok Except.ok ⟨[1, 2], some 2, 2⟩ rfl

/-- C10: lib.rs's pagination (key scan plus a point lookup per key) and
query.rs's pagination (a single range scan of pairs) return the same
data, next and qty, given that the point lookup of each scanned key yields
the same value the range scan yields for that key. -/
theorem lib_range_refinement {D : Type} (LIMIT : Nat) (p : Page Nat)
    (store : List (Nat × Nat)) (dk dv load : Nat → Except String Nat)
    (tr : Nat → Nat → D)
    (hco : ∀ e ∈ (scanAfter p.start store).take (p.qty.getD LIMIT),
        ∀ k, dk e.1 = Except.ok k → load k = dv e.2) :
    (DefaultPage.into_pagination LIMIT p store dk load tr).map
        (fun pg => (pg.data, pg.next, pg.qty))
      = (Page.into_pagination LIMIT p store dk dv tr).map
          (fun pg => (pg.data, pg.next, pg.qty)) :=
  default_into_pagination_agrees LIMIT p store dk dv load tr hco

theorem lib_range_refinement_witness :
    (DefaultPage.into_pagination 50 ⟨none, none⟩ [(1, 10), (2, 20)]
          Except.ok (mapLoad Except.ok [(1, 10), (2, 20)])
          (fun k v => (k, v))).map
        (fun pg => (pg.data, pg.next, pg.qty))
      = (Page.into_pagination 50 ⟨none, none⟩ [(1, 10), (2, 20)]
            Except.ok Except.ok (fun k v => (k, v))).map
          (fun pg => (pg.data, pg.next, pg.qty)) :=
  lib_range_refinement 50 ⟨none, none⟩ [(1, 10), (2, 20)] Except.ok
    Except.ok (mapLoad Except.ok [(1, 10), (2, 20)]) (fun k v => (k, v))
    (by
      intro e he k hk
      have he2 : e ∈ ([(1, 10), (2, 20)] : List (Nat × Nat)) :=
        List.take_subset _ _ he
      simp only [List.mem_cons, List.not_mem_nil, or_false] at he2
      rcases he2 with rfl | rfl <;>
        (injection hk with h2; rw [← h2]; rfl))
